import Mathlib

/-!
Verification of the attachment-resolution and line-classification pipeline of
`txt2tex.c` (a Signal-transcript → LaTeX converter).  The C code is embedded
shallowly: C strings become `List Nat` (their bytes, each < 256, NUL-free),
file sizes and parsed byte counts become `Int` (the C code uses `long long`
with `-1` as the "absent" sentinel), and the streaming main loop becomes a
fold over the list of input lines.  Fixed-size C buffers are kept: every
`snprintf`/`memcpy` clamp of the source appears as the corresponding
`List.take` bound.
-/

namespace Txt2Tex

/-- Bytes of an ASCII Lean string literal, used to transcribe the C string
literals of the source. -/
def strBytes (s : String) : List Nat := s.data.map Char.toNat

/-- C `isspace` on an `unsigned char` in the default locale: HT..CR and space. -/
def isspaceB (b : Nat) : Bool := b == 32 || (9 ≤ b && b ≤ 13)

/-- C `tolower` on an `unsigned char` in the default locale. -/
def tolowerB (b : Nat) : Nat := if 65 ≤ b ∧ b ≤ 90 then b + 32 else b

/-- C `isdigit`. -/
def isDigitB (b : Nat) : Bool := 48 ≤ b && b ≤ 57

/-- Model of `trimRight` of txt2tex.c: strip trailing `'\r'`, `'\n'` and `isspace`
bytes (the explicit CR/LF tests of the source are kept even though `isspace`
subsumes them). -/
def trimRight (s : List Nat) : List Nat :=
  (s.reverse.dropWhile (fun b => b == 13 || b == 10 || isspaceB b)).reverse

/-- Model of `startsWith` of txt2tex.c: `strncmp(s, p, strlen(p)) == 0`. -/
def startsWith (s p : List Nat) : Bool := p.isPrefixOf s

/-- Model of `startsWithIgnoreCase` of txt2tex.c.  The C loop also stops with failure
when `s` runs out first, because the NUL terminator never equals a
(non-NUL) lowered marker byte. -/
def startsWithIgnoreCase : List Nat → List Nat → Bool
  | _, [] => true
  | [], _ :: _ => false
  | c :: s, d :: p => tolowerB c == tolowerB d && startsWithIgnoreCase s p

/-- Model of `strchr(s, c)`: index of the first occurrence of byte `c`. -/
def idxOf (c : Nat) : List Nat → Option Nat
  | [] => none
  | b :: rest => if b == c then some 0 else (idxOf c rest).map (· + 1)

/-- Model of `strrchr(s, c)`: index of the last occurrence of byte `c`. -/
def lastIdxOf (c : Nat) : List Nat → Option Nat
  | [] => none
  | b :: rest =>
    match lastIdxOf c rest with
    | some i => some (i + 1)
    | none => if b == c then some 0 else none

/-- The `MaxPathLen` buffer bound of txt2tex.c. -/
def MaxPathLen : Nat := 4096

/-- Model of `utf8CharLen` of txt2tex.c.  For a byte `c < 256` the C mask tests
`(c & 0x80) == 0`, `(c & 0xE0) == 0xC0`, `(c & 0xF0) == 0xE0` and
`(c & 0xF8) == 0xF0` are exactly `c < 0x80`, `c / 0x20 = 6`, `c / 0x10 = 14`
and `c / 8 = 30`. -/
def utf8CharLen (c : Nat) : Nat :=
  if c < 0x80 then 1
  else if c / 0x20 == 6 then 2
  else if c / 0x10 == 14 then 3
  else if c / 8 == 30 then 4
  else 1

/-- The byte replacement performed by the `switch` of `writeLatexEscaped`
for one ASCII byte. -/
def escAscii (b : Nat) : List Nat :=
  if b == 92 then strBytes "\\textbackslash\x7b\x7d"
  else if b == 123 then strBytes "\\\x7b"
  else if b == 125 then strBytes "\\\x7d"
  else if b == 35 then strBytes "\\#"
  else if b == 36 then strBytes "\\$"
  else if b == 37 then strBytes "\\%"
  else if b == 38 then strBytes "\\&"
  else if b == 95 then strBytes "\\_"
  else if b == 94 then strBytes "\\textasciicircum\x7b\x7d"
  else if b == 126 then strBytes "\\textasciitilde\x7b\x7d"
  else [b]

/-- Opening delimiter written before a multi-byte UTF-8 sequence. -/
def emojiOpen : List Nat := strBytes "\\emoji\x7b"

/-- Closing delimiter written after a multi-byte UTF-8 sequence. -/
def emojiClose : List Nat := strBytes "\x7d"

/-- Fuel-indexed body of `writeLatexEscaped`.  One unit of fuel per loop
iteration; since every iteration consumes at least one input byte,
`s.length` fuel is always enough (`escapeBytesF_fuel`).  In the multi-byte
branch the C code copies `utf8CharLen` bytes starting at the lead byte with
`fwrite` and advances by the same amount; `List.take`/`List.drop` clip at
the end of the list where the C code would read past the terminator. -/
def escapeBytesF : Nat → List Nat → List Nat
  | 0, _ => []
  | _ + 1, [] => []
  | fuel + 1, c :: rest =>
    if c < 0x80 then escAscii c ++ escapeBytesF fuel rest
    else
      emojiOpen ++ (c :: rest.take (utf8CharLen c - 1)) ++ emojiClose ++
        escapeBytesF fuel (rest.drop (utf8CharLen c - 1))

/-- Model of `writeLatexEscaped` of txt2tex.c as a function from input bytes to
output bytes. -/
def escapeBytes (s : List Nat) : List Nat := escapeBytesF s.length s

/-- The chunking of the input induced by the scanner of
`writeLatexEscaped`: the bytes consumed by each loop iteration. -/
def scanChunksF : Nat → List Nat → List (List Nat)
  | 0, _ => []
  | _ + 1, [] => []
  | fuel + 1, c :: rest =>
    if c < 0x80 then [c] :: scanChunksF fuel rest
    else
      (c :: rest.take (utf8CharLen c - 1)) ::
        scanChunksF fuel (rest.drop (utf8CharLen c - 1))

/-- The chunks of input consumed by the successive iterations of
`writeLatexEscaped`'s loop. -/
def scanChunks (s : List Nat) : List (List Nat) := scanChunksF s.length s

/-- Model of `hasImageExtension` of txt2tex.c. -/
def hasImageExtension (name : List Nat) : Bool :=
  match lastIdxOf 46 name with
  | none => false
  | some i =>
    if i == 0 then false
    else
      let ext := (name.drop (i + 1)).map tolowerB
      if 16 ≤ ext.length then false
      else
        ext == strBytes "png" || ext == strBytes "jpg" || ext == strBytes "jpeg" ||
        ext == strBytes "gif" || ext == strBytes "bmp" || ext == strBytes "tif" ||
        ext == strBytes "tiff"

/-- One catalog entry (`AttachmentFile` of txt2tex.c).  The `fullPath`
field of the C struct is written only while loading the directory and never
read by the matching/emission pipeline, so it is not modelled. -/
structure AttachmentFile where
  fileName : List Nat
  fileSize : Int
  used : Bool
deriving DecidableEq

/-- A parsed attachment reference: the out-parameters of
`parseAttachmentLine` (`outHasName`, `outName`, `outMime`, `outBytes`). -/
structure AttRef where
  hasName : Bool
  name : List Nat
  mime : List Nat
  bytes : Int
deriving DecidableEq

/-- The `"Attachment:"` marker. -/
def attachMarker : List Nat := strBytes "Attachment:"

/-- The `"Type:"` marker. -/
def typeMarker : List Nat := strBytes "Type:"

/-- The `"Received:"` marker. -/
def receivedMarker : List Nat := strBytes "Received:"

/-- The `"From:"` marker. -/
def fromMarker : List Nat := strBytes "From:"

/-- Model of `sscanf(rest, "%lld", &v)` of txt2tex.c: skip whitespace, optional
sign, then a non-empty digit run; on matching failure the C variable keeps
its initial `-1`. -/
def scanLLD (s : List Nat) : Int :=
  let t := s.dropWhile isspaceB
  let su : Int × List Nat :=
    match t with
    | 43 :: rest => (1, rest)
    | 45 :: rest => (-1, rest)
    | _ => (1, t)
  let ds := su.2.takeWhile isDigitB
  if ds = [] then -1
  else su.1 * Int.ofNat (ds.foldl (fun a b => a * 10 + (b - 48)) 0)

/-- Model of `parseAttachmentLine` of txt2tex.c.  Byte codes: `'('` = 40, `')'` = 41,
`','` = 44.  The `min`-style clamps mirror the `MaxPathLen` buffer clamps of
the source, and `take 127` mirrors `snprintf` into the 128-byte `attMime`
buffer of `main`. -/
def parseAttachmentLine (line : List Nat) : AttRef :=
  let r0 : AttRef := { hasName := false, name := [], mime := [], bytes := -1 }
  if startsWith line attachMarker then
    let p := (line.drop attachMarker.length).dropWhile isspaceB
    match idxOf 40 p with
    | none => r0
    | some parenIdx =>
      let nameLen := if MaxPathLen ≤ parenIdx then MaxPathLen - 1 else parenIdx
      let namePart := trimRight (p.take nameLen)
      let hn : Bool × List Nat :=
        if namePart ≠ strBytes "no filename" ∧ namePart ≠ [] then (true, namePart)
        else (false, [])
      let inside := p.drop (parenIdx + 1)
      match idxOf 41 inside with
      | none => { hasName := hn.1, name := hn.2, mime := [], bytes := -1 }
      | some endIdx =>
        let innerLen := if MaxPathLen ≤ endIdx then MaxPathLen - 1 else endIdx
        let inner := trimRight (inside.take innerLen)
        match idxOf 44 inner with
        | none => { hasName := hn.1, name := hn.2, mime := [], bytes := -1 }
        | some commaIdx =>
          let mimePart := trimRight (inner.take commaIdx)
          let rest := (inner.drop (commaIdx + 1)).dropWhile isspaceB
          { hasName := hn.1, name := hn.2, mime := mimePart.take 127, bytes := scanLLD rest }
  else r0

/-- Model of `isImageMime` of txt2tex.c. -/
def isImageMime (mime : List Nat) : Bool := startsWith mime (strBytes "image/")

/-- Model of `findAttachmentByExactName` of txt2tex.c: first unconsumed entry whose
filename equals `name` byte for byte; the C loop index is recovered by the
`(· + 1)` shift. -/
def findAttachmentByExactName : List AttachmentFile → List Nat → Option Nat
  | [], _ => none
  | f :: rest, name =>
    if f.used then (findAttachmentByExactName rest name).map (· + 1)
    else if f.fileName = name then some 0
    else (findAttachmentByExactName rest name).map (· + 1)

/-- First pass of `findAttachmentBySize`: exact size and an image
extension. -/
def findBySizeImage : List AttachmentFile → Int → Option Nat
  | [], _ => none
  | f :: rest, size =>
    if f.used then (findBySizeImage rest size).map (· + 1)
    else if f.fileSize = size ∧ hasImageExtension f.fileName then some 0
    else (findBySizeImage rest size).map (· + 1)

/-- Second pass of `findAttachmentBySize`: exact size, any extension (the
C code records `bestIdx` and `break`s at the first hit). -/
def findBySizeAny : List AttachmentFile → Int → Option Nat
  | [], _ => none
  | f :: rest, size =>
    if f.used then (findBySizeAny rest size).map (· + 1)
    else if f.fileSize = size then some 0
    else (findBySizeAny rest size).map (· + 1)

/-- Model of `findAttachmentBySize` of txt2tex.c. -/
def findAttachmentBySize (list : List AttachmentFile) (size : Int) (preferImage : Bool) :
    Option Nat :=
  if preferImage then
    match findBySizeImage list size with
    | some i => some i
    | none => findBySizeAny list size
  else findBySizeAny list size

/-- The matching logic of `main` (txt2tex.c lines 552–560): exact-name
lookup when the reference has a name, then size lookup when that failed and
a byte count was parsed. -/
def matchAttachment (list : List AttachmentFile) (r : AttRef) : Option Nat :=
  let idx0 : Option Nat :=
    if r.hasName then findAttachmentByExactName list r.name else none
  match idx0 with
  | some i => some i
  | none => if 0 ≤ r.bytes then findAttachmentBySize list r.bytes (isImageMime r.mime) else none

/-- Model of `list.items[idx].used = 1` of `main`. -/
def consumeAt (list : List AttachmentFile) (i : Nat) : List AttachmentFile :=
  match list[i]? with
  | some f => list.set i { f with used := true }
  | none => list

/-- Model of `writeImageInclude` of txt2tex.c. -/
def imageIncludeFragment (relPath : List Nat) : List Nat :=
  strBytes "\n\\par\\noindent\n" ++
  strBytes "\\includegraphics[width=\\linewidth,height=0.9\\textheight,keepaspectratio]\x7b\\detokenize\x7b" ++
  relPath ++ strBytes "\x7d\x7d\n" ++ strBytes "\\par\\medskip\n\n"

/-- Model of `writeNonImageAttachment` of txt2tex.c. -/
def nonImageAttachmentFragment (relPath : List Nat) : List Nat :=
  strBytes "\n\\begin\x7bquote\x7d\n" ++
  strBytes "\\textbf\x7bAttachment:\x7d \\detokenize\x7b" ++ relPath ++
  strBytes "\x7d\n" ++ strBytes "\\end\x7bquote\x7d\n\n"

/-- The unmatched-attachment note of `main` (txt2tex.c lines 580–585). -/
def unmatchedFragment (line : List Nat) : List Nat :=
  strBytes "\n\\begin\x7bquote\x7d\n" ++
  strBytes "\\textbf\x7bUnmatched attachment placeholder:\x7d " ++ escapeBytes line ++
  strBytes "\\end\x7bquote\x7d\n\n"

/-- Model of `stripPhoneFromFromLine` of txt2tex.c: find the first `':'` (58), then
the first `'('` (40) at or after it, truncate there and right-trim. -/
def stripPhoneFromFromLine (line : List Nat) : List Nat :=
  match idxOf 58 line with
  | none => line
  | some ci =>
    match idxOf 40 (line.drop ci) with
    | none => line
    | some pi => trimRight (line.take (ci + pi))

/-- One iteration of the `fgets` loop of `main` (txt2tex.c lines 521–602):
given the catalog and one raw input line, the bytes written for that line
and the updated catalog.  The `relPath` clamp mirrors `snprintf` into the
`MaxPathLen` buffer. -/
def processLine (list : List AttachmentFile) (raw : List Nat) : List Nat × List AttachmentFile :=
  let line := trimRight raw
  if startsWithIgnoreCase line typeMarker then ([], list)
  else if startsWithIgnoreCase line receivedMarker then ([], list)
  else
    let line := if startsWithIgnoreCase line fromMarker then stripPhoneFromFromLine line else line
    if startsWith line attachMarker then
      let r := parseAttachmentLine line
      match matchAttachment list r with
      | some i =>
        match list[i]? with
        | some f =>
          let relPath := (strBytes "attachments/" ++ f.fileName).take (MaxPathLen - 1)
          if isImageMime r.mime || hasImageExtension f.fileName then
            (imageIncludeFragment relPath, consumeAt list i)
          else (nonImageAttachmentFragment relPath, consumeAt list i)
        | none => ([], list)
      | none => (unmatchedFragment line, list)
    else
      let line2 := trimRight line
      if line2 = [] then (strBytes "\n\n", list)
      else (escapeBytes line2 ++ strBytes "\\\\\n", list)

/-- The whole `fgets` loop: body bytes produced for a list of input lines. -/
def processLines : List AttachmentFile → List (List Nat) → List Nat
  | _, [] => []
  | list, l :: rest =>
    (processLine list l).1 ++ processLines (processLine list l).2 rest

/-- One match-and-consume step on the catalog, as performed by `main` for
one attachment reference. -/
def stepMatch (list : List AttachmentFile) (r : AttRef) : Option Nat × List AttachmentFile :=
  match matchAttachment list r with
  | some i => (some i, consumeAt list i)
  | none => (none, list)

/-- The sequence of match-and-consume steps a run performs for its
attachment references, with the per-reference resolution results and the
final catalog. -/
def runMatches : List AttachmentFile → List AttRef → List (Option Nat) × List AttachmentFile
  | list, [] => ([], list)
  | list, r :: rs =>
    ((stepMatch list r).1 :: (runMatches (stepMatch list r).2 rs).1,
      (runMatches (stepMatch list r).2 rs).2)

/-- The resolution results of a run, one `Option` index per reference. -/
def matchTrace (list : List AttachmentFile) (refs : List AttRef) : List (Option Nat) :=
  (runMatches list refs).1

/-- The catalog state after the first `n` references of a run. -/
def stateAt (list : List AttachmentFile) (refs : List AttRef) (n : Nat) : List AttachmentFile :=
  (runMatches list (refs.take n)).2

/-- Output-file naming of `main` (txt2tex.c lines 454–471): truncate at the
last `'.'` (46) when it exists and is not the first byte, then append
`".tex"`; otherwise append `".tex"` to the whole input.  The clamps mirror
the `MaxPathLen` output buffer. -/
def outputPathOf (input : List Nat) : List Nat :=
  match lastIdxOf 46 input with
  | some i =>
    if i ≠ 0 then
      let baseLen := if MaxPathLen ≤ i then MaxPathLen - 5 else i
      input.take baseLen ++ strBytes ".tex"
    else (input ++ strBytes ".tex").take (MaxPathLen - 1)
  | none => (input ++ strBytes ".tex").take (MaxPathLen - 1)

/-- The spec's naming convention, following its words: the output location
is the input location with its final extension replaced by `".tex"`, or
with `".tex"` appended when the input has no extension.  An extension, in
the ordinary sense the spec appeals to, lives in the final path component
(after the last `'/'` = 47), and a leading dot of that component (a
dotfile) does not begin an extension. -/
def specOutputPath (input : List Nat) : List Nat :=
  let compStart : Nat :=
    match lastIdxOf 47 input with
    | none => 0
    | some s => s + 1
  let comp := input.drop compStart
  match lastIdxOf 46 comp with
  | some j =>
    if j ≠ 0 then input.take (compStart + j) ++ strBytes ".tex"
    else input ++ strBytes ".tex"
  | none => input ++ strBytes ".tex"

/-- String-level last-dot rule: truncate at the last `'.'` when one occurs
beyond the first byte (even inside a directory component), else append. -/
def lastDotRule (input : List Nat) : List Nat :=
  match lastIdxOf 46 input with
  | some i =>
    if i ≠ 0 then input.take i ++ strBytes ".tex"
    else input ++ strBytes ".tex"
  | none => input ++ strBytes ".tex"

/-- A unit the scanner of `writeLatexEscaped` consumes in one iteration
without clipping: a lead byte followed by exactly `utf8CharLen`-many − 1
further bytes (for an ASCII byte this forces a singleton). -/
def scanUnit : List Nat → Bool
  | [] => false
  | b :: cs => cs.length + 1 == utf8CharLen b

/-- The output `writeLatexEscaped` produces for one consumed unit. -/
def escUnit : List Nat → List Nat
  | [] => []
  | b :: cs => if b < 0x80 then escAscii b else emojiOpen ++ (b :: cs) ++ emojiClose

/-- A single printable ASCII byte as a scanner unit. -/
def validAsciiUnit : List Nat → Bool
  | [b] => decide (0 < b ∧ b < 0x80)
  | _ => false

/-- A continuation byte `0x80 ≤ b < 0xC0`. -/
def isContByte (b : Nat) : Bool := 0x80 ≤ b && b < 0xC0

/-- A valid multi-byte UTF-8 sequence: a lead byte in the 2-, 3- or 4-byte
range followed by the matching number of continuation bytes.  (Every
strictly valid multi-byte UTF-8 scalar encoding satisfies this predicate.) -/
def validMultiByteSeq : List Nat → Bool
  | [] => false
  | b :: cs =>
    ((0xC2 ≤ b && b ≤ 0xDF) || (0xE0 ≤ b && b ≤ 0xEF) || (0xF0 ≤ b && b ≤ 0xF4)) &&
    (cs.length + 1 == utf8CharLen b) && cs.all isContByte

example : escapeBytes (strBytes "a_b") = strBytes "a\\_b" := by decide

example : escapeBytes [72, 0xC3, 0xA9] = strBytes "H\\emoji\x7b" ++ [0xC3, 0xA9] ++ strBytes "\x7d" := by decide

example : parseAttachmentLine (strBytes "Attachment: no filename (image/jpeg, 439593 bytes)") =
    { hasName := false, name := [], mime := strBytes "image/jpeg", bytes := 439593 } := by decide

example : parseAttachmentLine (strBytes "Attachment: myImage.png (image/png, 311164 bytes)") =
    { hasName := true, name := strBytes "myImage.png", mime := strBytes "image/png",
      bytes := 311164 } := by decide

example : stripPhoneFromFromLine (strBytes "From: Jane Doe (+15551234567)") =
    strBytes "From: Jane Doe" := by decide

example : hasImageExtension (strBytes "IMG_0001.jpg") = true := by decide

example : hasImageExtension (strBytes "notes.pdf") = false := by decide

example : outputPathOf (strBytes "messages.txt") = strBytes "messages.tex" := by decide

example : outputPathOf (strBytes "a.b/c") = strBytes "a.tex" := by decide

example : specOutputPath (strBytes "a.b/c") = strBytes "a.b/c.tex" := by decide

/-- Lemma: `findAttachmentByExactName` only returns indices of unconsumed entries
whose filename equals the searched name. -/
theorem findName_sound (name : List Nat) :
    ∀ (list : List AttachmentFile) (i : Nat),
      findAttachmentByExactName list name = some i →
      ∃ f, list[i]? = some f ∧ f.used = false ∧ f.fileName = name := by
  intro list
  induction list with
  | nil => intro i h; simp [findAttachmentByExactName] at h
  | cons f rest ih =>
    intro i h
    rw [findAttachmentByExactName] at h
    by_cases hu : f.used = true
    · rw [if_pos hu] at h
      rcases Option.map_eq_some'.mp h with ⟨j, hj, hji⟩
      rcases ih j hj with ⟨g, hg, hgu, hgn⟩
      exact ⟨g, by rw [← hji]; simpa using hg, hgu, hgn⟩
    · rw [if_neg hu] at h
      by_cases hn : f.fileName = name
      · rw [if_pos hn] at h
        cases h
        exact ⟨f, by simp, by simpa using hu, hn⟩
      · rw [if_neg hn] at h
        rcases Option.map_eq_some'.mp h with ⟨j, hj, hji⟩
        rcases ih j hj with ⟨g, hg, hgu, hgn⟩
        exact ⟨g, by rw [← hji]; simpa using hg, hgu, hgn⟩

/-- Lemma: `findAttachmentByExactName` returns the first eligible index: every
earlier entry is consumed or differently named. -/
theorem findName_least (name : List Nat) :
    ∀ (list : List AttachmentFile) (i : Nat),
      findAttachmentByExactName list name = some i →
      ∀ j, j < i → ∀ g, list[j]? = some g → g.used = true ∨ g.fileName ≠ name := by
  intro list
  induction list with
  | nil => intro i h; simp [findAttachmentByExactName] at h
  | cons f rest ih =>
    intro i h j hj g hg
    rw [findAttachmentByExactName] at h
    by_cases hu : f.used = true
    · rw [if_pos hu] at h
      rcases Option.map_eq_some'.mp h with ⟨i', hi', hii⟩
      cases j with
      | zero =>
        have : g = f := by simpa using hg.symm
        exact Or.inl (this ▸ hu)
      | succ j =>
        have hj' : j < i' := by omega
        exact ih i' hi' j hj' g (by simpa using hg)
    · rw [if_neg hu] at h
      by_cases hn : f.fileName = name
      · rw [if_pos hn] at h
        cases h
        omega
      · rw [if_neg hn] at h
        rcases Option.map_eq_some'.mp h with ⟨i', hi', hii⟩
        cases j with
        | zero =>
          have : g = f := by simpa using hg.symm
          exact Or.inr (this ▸ hn)
        | succ j =>
          have hj' : j < i' := by omega
          exact ih i' hi' j hj' g (by simpa using hg)

/-- If some unconsumed entry carries the searched name,
`findAttachmentByExactName` succeeds. -/
theorem findName_isSome (name : List Nat) :
    ∀ (list : List AttachmentFile) (i : Nat) (f : AttachmentFile),
      list[i]? = some f → f.used = false → f.fileName = name →
      (findAttachmentByExactName list name).isSome := by
  intro list
  induction list with
  | nil => intro i f h; simp at h
  | cons f0 rest ih =>
    intro i f hf hu hn
    rw [findAttachmentByExactName]
    cases i with
    | zero =>
      have : f0 = f := by simpa using hf
      subst this
      rw [if_neg (by simp [hu]), if_pos hn]
      rfl
    | succ i =>
      have hrec := ih i f (by simpa using hf) hu hn
      by_cases hu0 : f0.used = true
      · rw [if_pos hu0]
        simpa using hrec
      · rw [if_neg hu0]
        by_cases hn0 : f0.fileName = name
        · rw [if_pos hn0]; rfl
        · rw [if_neg hn0]
          simpa using hrec

/-- First pass of the size search only returns unconsumed entries of the
searched size (with an image extension). -/
theorem findBySizeImage_sound (size : Int) :
    ∀ (list : List AttachmentFile) (i : Nat),
      findBySizeImage list size = some i →
      ∃ f, list[i]? = some f ∧ f.used = false ∧ f.fileSize = size := by
  intro list
  induction list with
  | nil => intro i h; simp [findBySizeImage] at h
  | cons f rest ih =>
    intro i h
    rw [findBySizeImage] at h
    by_cases hu : f.used = true
    · rw [if_pos hu] at h
      rcases Option.map_eq_some'.mp h with ⟨j, hj, hji⟩
      rcases ih j hj with ⟨g, hg, hgu, hgs⟩
      exact ⟨g, by rw [← hji]; simpa using hg, hgu, hgs⟩
    · rw [if_neg hu] at h
      by_cases hs : f.fileSize = size ∧ hasImageExtension f.fileName = true
      · rw [if_pos hs] at h
        cases h
        exact ⟨f, by simp, by simpa using hu, hs.1⟩
      · rw [if_neg hs] at h
        rcases Option.map_eq_some'.mp h with ⟨j, hj, hji⟩
        rcases ih j hj with ⟨g, hg, hgu, hgs⟩
        exact ⟨g, by rw [← hji]; simpa using hg, hgu, hgs⟩

/-- Second pass of the size search only returns unconsumed entries of the
searched size. -/
theorem findBySizeAny_sound (size : Int) :
    ∀ (list : List AttachmentFile) (i : Nat),
      findBySizeAny list size = some i →
      ∃ f, list[i]? = some f ∧ f.used = false ∧ f.fileSize = size := by
  intro list
  induction list with
  | nil => intro i h; simp [findBySizeAny] at h
  | cons f rest ih =>
    intro i h
    rw [findBySizeAny] at h
    by_cases hu : f.used = true
    · rw [if_pos hu] at h
      rcases Option.map_eq_some'.mp h with ⟨j, hj, hji⟩
      rcases ih j hj with ⟨g, hg, hgu, hgs⟩
      exact ⟨g, by rw [← hji]; simpa using hg, hgu, hgs⟩
    · rw [if_neg hu] at h
      by_cases hs : f.fileSize = size
      · rw [if_pos hs] at h
        cases h
        exact ⟨f, by simp, by simpa using hu, hs⟩
      · rw [if_neg hs] at h
        rcases Option.map_eq_some'.mp h with ⟨j, hj, hji⟩
        rcases ih j hj with ⟨g, hg, hgu, hgs⟩
        exact ⟨g, by rw [← hji]; simpa using hg, hgu, hgs⟩

/-- Lemma: `findAttachmentBySize` only returns unconsumed entries of the searched
size. -/
theorem findSize_sound (list : List AttachmentFile) (size : Int) (preferImage : Bool) (i : Nat)
    (h : findAttachmentBySize list size preferImage = some i) :
    ∃ f, list[i]? = some f ∧ f.used = false ∧ f.fileSize = size := by
  rw [findAttachmentBySize] at h
  by_cases hp : preferImage = true
  · rw [if_pos hp] at h
    cases hfi : findBySizeImage list size with
    | some j =>
      rw [hfi] at h
      cases h
      exact findBySizeImage_sound size list i hfi
    | none =>
      rw [hfi] at h
      exact findBySizeAny_sound size list i h
  · rw [if_neg hp] at h
    exact findBySizeAny_sound size list i h

/-- The matcher only returns indices of unconsumed entries. -/
theorem matchAttachment_unconsumed (list : List AttachmentFile) (r : AttRef) (i : Nat)
    (h : matchAttachment list r = some i) :
    ∃ f, list[i]? = some f ∧ f.used = false := by
  rw [matchAttachment] at h
  cases hn : (if r.hasName then findAttachmentByExactName list r.name else none) with
  | some j =>
    rw [hn] at h
    cases h
    by_cases hhn : r.hasName = true
    · rw [if_pos hhn] at hn
      rcases findName_sound r.name list i hn with ⟨f, hf, hu, _⟩
      exact ⟨f, hf, hu⟩
    · rw [if_neg hhn] at hn; cases hn
  | none =>
    rw [hn] at h
    by_cases hb : (0 : Int) ≤ r.bytes
    · rw [if_pos hb] at h
      rcases findSize_sound list r.bytes (isImageMime r.mime) i h with ⟨f, hf, hu, _⟩
      exact ⟨f, hf, hu⟩
    · rw [if_neg hb] at h; cases h

/-- Marking an entry consumed rewrites exactly that index. -/
theorem consumeAt_get_self (list : List AttachmentFile) (i : Nat) (f : AttachmentFile)
    (h : list[i]? = some f) :
    (consumeAt list i)[i]? = some { f with used := true } := by
  rw [consumeAt, h]
  have hlt : i < list.length := by
    rcases List.getElem?_eq_some.mp h with ⟨hl, _⟩
    exact hl
  exact List.getElem?_set_eq_of_lt _ hlt

/-- Marking an entry consumed leaves every other index unchanged. -/
theorem consumeAt_get_ne (list : List AttachmentFile) (i j : Nat) (h : j ≠ i) :
    (consumeAt list i)[j]? = list[j]? := by
  rw [consumeAt]
  cases hi : list[i]? with
  | none => rfl
  | some f => exact List.getElem?_set_ne (fun he => h he.symm)

/-- Consumption preserves the catalog length. -/
theorem consumeAt_length (list : List AttachmentFile) (i : Nat) :
    (consumeAt list i).length = list.length := by
  rw [consumeAt]
  cases hi : list[i]? with
  | none => rfl
  | some f => simp

/-- Claim C6 (amended): an exact-name lookup returns index `i` exactly when
entry `i` is unconsumed with the searched name and every earlier entry is
either already consumed or differently named; in particular, under a
duplicate filename the first loaded entry shadows the later one only while
it is unconsumed, and the later duplicate becomes discoverable once the
first is consumed. -/
theorem name_lookup_first_unconsumed (list : List AttachmentFile) (name : List Nat) (i : Nat) :
    findAttachmentByExactName list name = some i ↔
      (∃ f, list[i]? = some f ∧ f.used = false ∧ f.fileName = name) ∧
      ∀ j, j < i → ∀ g, list[j]? = some g → g.used = true ∨ g.fileName ≠ name := by
  constructor
  · intro h
    exact ⟨findName_sound name list i h, findName_least name list i h⟩
  · rintro ⟨⟨f, hf, hu, hn⟩, hleast⟩
    have hsome := findName_isSome name list i f hf hu hn
    rcases Option.isSome_iff_exists.mp hsome with ⟨i', hi'⟩
    rcases findName_sound name list i' hi' with ⟨f', hf', hu', hn'⟩
    rcases Nat.lt_trichotomy i' i with hlt | heq | hgt
    · rcases hleast i' hlt f' hf' with hc | hc
      · rw [hu'] at hc; cases hc
      · exact absurd hn' hc
    · rw [heq] at hi'; exact hi'
    · rcases findName_least name list i' hi' i hgt f hf with hc | hc
      · rw [hu] at hc; cases hc
      · exact absurd hn hc

/-- Witness for the amended C6 statement: with the first duplicate already
consumed, the lookup resolves to the second entry. -/
theorem name_lookup_first_unconsumed_witness :
    findAttachmentByExactName
      [⟨strBytes "x.txt", 1, true⟩, ⟨strBytes "x.txt", 2, false⟩] (strBytes "x.txt") =
      some 1 :=
  (name_lookup_first_unconsumed _ _ 1).mpr
    ⟨⟨⟨strBytes "x.txt", 2, false⟩, by decide, rfl, rfl⟩, by
      intro j hj g hg
      have hj0 : j = 0 := by omega
      subst hj0
      have : (⟨strBytes "x.txt", 1, true⟩ : AttachmentFile) = g := by simpa using hg
      exact Or.inl (by rw [← this])⟩

/-- Claim C6 (counterexample to the claim as stated): two same-named
catalog entries and two name references; the second name lookup of the run
returns the later duplicate (index 1), so the later duplicate is
discoverable by a name lookup within the run. -/
theorem duplicate_name_counterexample :
    matchTrace [⟨strBytes "x.txt", 1, false⟩, ⟨strBytes "x.txt", 2, false⟩]
        [⟨true, strBytes "x.txt", [], -1⟩, ⟨true, strBytes "x.txt", [], -1⟩] =
      [some 0, some 1] := by decide

/-- Claim C1: when a reference carries a name (and a size) and some
unconsumed catalog entry matches the name exactly, the matcher resolves to
the first such entry in catalog order, and the outcome is independent of
the declared size and mime type. -/
theorem name_match_first_and_size_ignored (list : List AttachmentFile) (r : AttRef)
    (hn : r.hasName = true) (hb : (0 : Int) ≤ r.bytes) (i : Nat) (f : AttachmentFile)
    (hf : list[i]? = some f) (hu : f.used = false) (he : f.fileName = r.name) :
    ∃ j g, list[j]? = some g ∧ g.used = false ∧ g.fileName = r.name ∧
      (∀ k, k < j → ∀ h, list[k]? = some h → h.used = true ∨ h.fileName ≠ r.name) ∧
      matchAttachment list r = some j ∧
      (∀ b' m', matchAttachment list { r with bytes := b', mime := m' } = some j) := by
  have hsome := findName_isSome r.name list i f hf hu he
  rcases Option.isSome_iff_exists.mp hsome with ⟨j, hj⟩
  rcases findName_sound r.name list j hj with ⟨g, hg, hgu, hgn⟩
  refine ⟨j, g, hg, hgu, hgn, findName_least r.name list j hj, ?_, ?_⟩
  · rw [matchAttachment, if_pos hn, hj]
  · intro b' m'
    rw [matchAttachment]
    simp only []
    rw [if_pos (show ({ r with bytes := b', mime := m' } : AttRef).hasName = true from hn)]
    show (match findAttachmentByExactName list r.name with
      | some i => some i
      | none => _) = some j
    rw [hj]

/-- Witness for C1, instantiating the spec's name-priority scenario: the
name matches the non-image entry `doc.txt` (index 0) while the size 555
matches the image entry `pic.png` (index 1) and the mime is `image/png`;
resolution still picks index 0. -/
theorem name_match_first_and_size_ignored_witness :
    ∃ j g,
      ([⟨strBytes "doc.txt", 100, false⟩, ⟨strBytes "pic.png", 555, false⟩] :
          List AttachmentFile)[j]? = some g ∧
      g.used = false ∧
      g.fileName = (⟨true, strBytes "doc.txt", strBytes "image/png", 555⟩ : AttRef).name ∧
      (∀ k, k < j → ∀ h,
        ([⟨strBytes "doc.txt", 100, false⟩, ⟨strBytes "pic.png", 555, false⟩] :
            List AttachmentFile)[k]? = some h →
        h.used = true ∨ h.fileName ≠ (⟨true, strBytes "doc.txt", strBytes "image/png", 555⟩ : AttRef).name) ∧
      matchAttachment [⟨strBytes "doc.txt", 100, false⟩, ⟨strBytes "pic.png", 555, false⟩]
        ⟨true, strBytes "doc.txt", strBytes "image/png", 555⟩ = some j ∧
      (∀ b' m', matchAttachment [⟨strBytes "doc.txt", 100, false⟩, ⟨strBytes "pic.png", 555, false⟩]
        { (⟨true, strBytes "doc.txt", strBytes "image/png", 555⟩ : AttRef) with
            bytes := b', mime := m' } = some j) :=
  name_match_first_and_size_ignored _ _ rfl (by decide) 0
    ⟨strBytes "doc.txt", 100, false⟩ (by decide) rfl rfl

/-- The result component of one match-and-consume step is the matcher's
verdict. -/
theorem stepMatch_fst (list : List AttachmentFile) (r : AttRef) :
    (stepMatch list r).1 = matchAttachment list r := by
  rw [stepMatch]
  cases matchAttachment list r <;> rfl

/-- The state component of one match-and-consume step. -/
theorem stepMatch_snd (list : List AttachmentFile) (r : AttRef) :
    (stepMatch list r).2 =
      (match matchAttachment list r with
        | some i => consumeAt list i
        | none => list) := by
  rw [stepMatch]
  cases matchAttachment list r <;> rfl

/-- A run over `xs ++ ys` is the run over `xs` followed by the run over
`ys` from the intermediate catalog. -/
theorem runMatches_append :
    ∀ (xs : List AttRef) (list : List AttachmentFile) (ys : List AttRef),
      runMatches list (xs ++ ys) =
        ((runMatches list xs).1 ++ (runMatches (runMatches list xs).2 ys).1,
          (runMatches (runMatches list xs).2 ys).2) := by
  intro xs
  induction xs with
  | nil => intro list ys; rfl
  | cons x xs ih =>
    intro list ys
    show runMatches list (x :: (xs ++ ys)) = _
    rw [runMatches, ih (stepMatch list x).2 ys, runMatches]
    rfl

/-- There is one trace element per reference. -/
theorem matchTrace_length :
    ∀ (refs : List AttRef) (list : List AttachmentFile),
      (matchTrace list refs).length = refs.length := by
  intro refs
  induction refs with
  | nil => intro list; rfl
  | cons r rs ih =>
    intro list
    show (matchTrace (stepMatch list r).2 rs).length + 1 = rs.length + 1
    rw [ih]

/-- A run never changes the number of catalog entries. -/
theorem runMatches_state_length :
    ∀ (refs : List AttRef) (list : List AttachmentFile),
      (runMatches list refs).2.length = list.length := by
  intro refs
  induction refs with
  | nil => intro list; rfl
  | cons r rs ih =>
    intro list
    show (runMatches (stepMatch list r).2 rs).2.length = _
    rw [ih, stepMatch_snd]
    cases matchAttachment list r with
    | none => rfl
    | some i => exact consumeAt_length list i

/-- The catalog state after `n` steps has the same length as the initial
catalog. -/
theorem stateAt_length (list : List AttachmentFile) (refs : List AttRef) (n : Nat) :
    (stateAt list refs n).length = list.length :=
  runMatches_state_length (refs.take n) list

/-- Membership of a value in a cons trace. -/
theorem exists_cons_trace (o : Option Nat) (tr : List (Option Nat)) (i : Nat) :
    (∃ j : Nat, (o :: tr)[j]? = some (some i)) ↔
      (o = some i ∨ ∃ j : Nat, tr[j]? = some (some i)) := by
  constructor
  · rintro ⟨j, hj⟩
    cases j with
    | zero => exact Or.inl (by simpa using hj)
    | succ j => exact Or.inr ⟨j, by simpa using hj⟩
  · rintro (h | ⟨j, hj⟩)
    · exact ⟨0, by simp [h]⟩
    · exact ⟨j + 1, by simpa using hj⟩

/-- Character of each catalog entry across a whole run: name and size never
change, and the final consumed flag is the initial one, or true as soon as
some step of the run resolved to this index.  This is the `false → true`
once-only lifecycle of the consumed flag. -/
theorem run_entry_char :
    ∀ (refs : List AttRef) (list : List AttachmentFile) (i : Nat) (f0 : AttachmentFile),
      list[i]? = some f0 →
      ∃ f, ((runMatches list refs).2)[i]? = some f ∧ f.fileName = f0.fileName ∧
        f.fileSize = f0.fileSize ∧
        (f.used = true ↔
          (f0.used = true ∨ ∃ j : Nat, (runMatches list refs).1[j]? = some (some i))) := by
  intro refs
  induction refs with
  | nil =>
    intro list i f0 h
    refine ⟨f0, h, rfl, rfl, ?_⟩
    constructor
    · exact fun hu => Or.inl hu
    · rintro (hu | ⟨j, hj⟩)
      · exact hu
      · simp [runMatches] at hj
  | cons r rs ih =>
    intro list i f0 h
    rw [runMatches]
    rcases hm : matchAttachment list r with _ | i'
    · have hs : stepMatch list r = (none, list) := by rw [stepMatch, hm]
      rw [hs]
      rcases ih list i f0 h with ⟨f, hf, h1, h2, h3⟩
      refine ⟨f, hf, h1, h2, ?_⟩
      rw [h3]
      rw [exists_cons_trace]
      constructor
      · rintro (hu | hj)
        · exact Or.inl hu
        · exact Or.inr (Or.inr hj)
      · rintro (hu | (hne | hj))
        · exact Or.inl hu
        · cases hne
        · exact Or.inr hj
    · have hs : stepMatch list r = (some i', consumeAt list i') := by rw [stepMatch, hm]
      rw [hs]
      by_cases hii : i' = i
      · subst hii
        have hci := consumeAt_get_self list i' f0 h
        rcases ih (consumeAt list i') i' { f0 with used := true } hci with ⟨f, hf, h1, h2, h3⟩
        refine ⟨f, hf, h1, h2, ?_⟩
        constructor
        · intro _
          exact Or.inr ((exists_cons_trace _ _ _).mpr (Or.inl rfl))
        · intro _
          exact h3.mpr (Or.inl rfl)
      · have hci := consumeAt_get_ne list i' i (fun he => hii he.symm)
        rcases ih (consumeAt list i') i f0 (by rw [hci]; exact h) with ⟨f, hf, h1, h2, h3⟩
        refine ⟨f, hf, h1, h2, ?_⟩
        rw [h3, exists_cons_trace]
        constructor
        · rintro (hu | hj)
          · exact Or.inl hu
          · exact Or.inr (Or.inr hj)
        · rintro (hu | (hne | hj))
          · exact Or.inl hu
          · exact absurd (Option.some_inj.mp hne) hii
          · exact Or.inr hj

/-- The trace element at position `k` is the matcher's verdict on reference
`k` against the catalog state after the first `k` steps. -/
theorem trace_get :
    ∀ (refs : List AttRef) (list : List AttachmentFile) (k : Nat) (r : AttRef),
      refs[k]? = some r →
      (matchTrace list refs)[k]? = some (matchAttachment (stateAt list refs k) r) := by
  intro refs
  induction refs with
  | nil => intro list k r h; simp at h
  | cons r0 rs ih =>
    intro list k r h
    cases k with
    | zero =>
      have hr : r0 = r := by simpa using h
      subst hr
      show ((stepMatch list r0).1 :: (runMatches (stepMatch list r0).2 rs).1)[0]? = _
      rw [List.getElem?_cons_zero, stepMatch_fst]
      rfl
    | succ k =>
      have hr : rs[k]? = some r := by simpa using h
      show ((stepMatch list r0).1 :: (runMatches (stepMatch list r0).2 rs).1)[k + 1]? = _
      rw [List.getElem?_cons_succ]
      exact ih (stepMatch list r0).2 k r hr

/-- Restricting the run to its first `k` references restricts the trace. -/
theorem matchTrace_take (list : List AttachmentFile) (refs : List AttRef) (k : Nat) :
    matchTrace list (refs.take k) = (matchTrace list refs).take k := by
  by_cases hk : k ≤ refs.length
  · have h2 := runMatches_append (refs.take k) list (refs.drop k)
    rw [List.take_append_drop] at h2
    have h3 : matchTrace list refs =
        matchTrace list (refs.take k) ++
          (runMatches (runMatches list (refs.take k)).2 (refs.drop k)).1 := by
      rw [matchTrace, h2]
      rfl
    have hlen : (matchTrace list (refs.take k)).length = k := by
      rw [matchTrace_length, List.length_take]
      omega
    rw [h3, List.take_left' hlen]
  · rw [List.take_of_length_le (by omega),
      List.take_of_length_le (by rw [matchTrace_length]; omega)]

/-- Claim C2: within a run, no two references resolve to the same catalog
entry; a resolved entry was unconsumed when matched, and is consumed in
every later state (the flag transitions `false → true` when matched and
never reverts). -/
theorem consumption_exclusivity (list : List AttachmentFile) (refs : List AttRef)
    (i j1 j2 : Nat) (hj : j1 < j2)
    (h1 : (matchTrace list refs)[j1]? = some (some i)) :
    (matchTrace list refs)[j2]? ≠ some (some i) ∧
    (∃ f, (stateAt list refs j1)[i]? = some f ∧ f.used = false) ∧
    (∀ k, j1 < k → ∃ f, (stateAt list refs k)[i]? = some f ∧ f.used = true) := by
  have hj1len : j1 < refs.length := by
    have := List.getElem?_eq_some.mp h1
    rcases this with ⟨hl, _⟩
    rw [matchTrace_length] at hl
    exact hl
  obtain ⟨r1, hr1⟩ : ∃ r1, refs[j1]? = some r1 :=
    ⟨refs[j1], List.getElem?_eq_getElem hj1len⟩
  have htr1 := trace_get refs list j1 r1 hr1
  have hm1 : matchAttachment (stateAt list refs j1) r1 = some i := by
    rw [htr1] at h1
    exact Option.some_inj.mp h1
  rcases matchAttachment_unconsumed _ _ _ hm1 with ⟨g1, hg1, hg1u⟩
  have hilen : i < list.length := by
    rcases List.getElem?_eq_some.mp hg1 with ⟨hl, _⟩
    rw [stateAt_length] at hl
    exact hl
  obtain ⟨f0, hf0⟩ : ∃ f0, list[i]? = some f0 := ⟨list[i], List.getElem?_eq_getElem hilen⟩
  have hlater : ∀ k, j1 < k → ∃ f, (stateAt list refs k)[i]? = some f ∧ f.used = true := by
    intro k hk
    have hmem : ∃ j : Nat, (matchTrace list (refs.take k))[j]? = some (some i) := by
      refine ⟨j1, ?_⟩
      rw [matchTrace_take, List.getElem?_take, if_pos hk]
      exact h1
    rcases run_entry_char (refs.take k) list i f0 hf0 with ⟨f, hf, _, _, hiff⟩
    exact ⟨f, hf, hiff.mpr (Or.inr hmem)⟩
  refine ⟨?_, ⟨g1, hg1, hg1u⟩, hlater⟩
  intro h2
  have hj2len : j2 < refs.length := by
    rcases List.getElem?_eq_some.mp h2 with ⟨hl, _⟩
    rw [matchTrace_length] at hl
    exact hl
  obtain ⟨r2, hr2⟩ : ∃ r2, refs[j2]? = some r2 := ⟨refs[j2], List.getElem?_eq_getElem hj2len⟩
  have htr2 := trace_get refs list j2 r2 hr2
  have hm2 : matchAttachment (stateAt list refs j2) r2 = some i := by
    rw [htr2] at h2
    exact Option.some_inj.mp h2
  rcases matchAttachment_unconsumed _ _ _ hm2 with ⟨g2, hg2, hg2u⟩
  rcases hlater j2 hj with ⟨f, hf, hfu⟩
  rw [hf] at hg2
  have : f = g2 := Option.some_inj.mp hg2
  rw [← this, hfu] at hg2u
  cases hg2u

/-- Witness for C2: a one-entry catalog and two size references; the first
resolves to index 0, so the second must not and the entry is consumed in
every later state. -/
theorem consumption_exclusivity_witness :
    (matchTrace [⟨strBytes "a.bin", 7, false⟩]
        [⟨false, [], [], 7⟩, ⟨false, [], [], 7⟩])[1]? ≠ some (some 0) ∧
    (∃ f, (stateAt [⟨strBytes "a.bin", 7, false⟩]
        [⟨false, [], [], 7⟩, ⟨false, [], [], 7⟩] 0)[0]? = some f ∧ f.used = false) ∧
    (∀ k, 0 < k → ∃ f, (stateAt [⟨strBytes "a.bin", 7, false⟩]
        [⟨false, [], [], 7⟩, ⟨false, [], [], 7⟩] k)[0]? = some f ∧ f.used = true) :=
  consumption_exclusivity [⟨strBytes "a.bin", 7, false⟩]
    [⟨false, [], [], 7⟩, ⟨false, [], [], 7⟩] 0 0 1 (by decide) (by decide)

/-- Lemma: `escapeBytesF` is independent of the fuel once the fuel covers the
input length (each loop iteration consumes at least one byte). -/
theorem escapeBytesF_fuel :
    ∀ (fuel1 fuel2 : Nat) (s : List Nat),
      s.length ≤ fuel1 → s.length ≤ fuel2 → escapeBytesF fuel1 s = escapeBytesF fuel2 s := by
  intro fuel1
  induction fuel1 with
  | zero =>
    intro fuel2 s h1 _
    have hs : s = [] := List.length_eq_zero.mp (Nat.le_zero.mp h1)
    subst hs
    cases fuel2 <;> rfl
  | succ n ih =>
    intro fuel2 s h1 h2
    cases s with
    | nil => cases fuel2 <;> rfl
    | cons c rest =>
      cases fuel2 with
      | zero => simp at h2
      | succ m =>
        rw [escapeBytesF, escapeBytesF]
        simp only [List.length_cons] at h1 h2
        by_cases hc : c < 0x80
        · simp only [if_pos hc]
          rw [ih m rest (by omega) (by omega)]
        · simp only [if_neg hc]
          rw [ih m (rest.drop (utf8CharLen c - 1))
              (by rw [List.length_drop]; omega) (by rw [List.length_drop]; omega)]

/-- Same fuel independence for the scanner chunking. -/
theorem scanChunksF_fuel :
    ∀ (fuel1 fuel2 : Nat) (s : List Nat),
      s.length ≤ fuel1 → s.length ≤ fuel2 → scanChunksF fuel1 s = scanChunksF fuel2 s := by
  intro fuel1
  induction fuel1 with
  | zero =>
    intro fuel2 s h1 _
    have hs : s = [] := List.length_eq_zero.mp (Nat.le_zero.mp h1)
    subst hs
    cases fuel2 <;> rfl
  | succ n ih =>
    intro fuel2 s h1 h2
    cases s with
    | nil => cases fuel2 <;> rfl
    | cons c rest =>
      cases fuel2 with
      | zero => simp at h2
      | succ m =>
        rw [scanChunksF, scanChunksF]
        simp only [List.length_cons] at h1 h2
        by_cases hc : c < 0x80
        · simp only [if_pos hc]
          rw [ih m rest (by omega) (by omega)]
        · simp only [if_neg hc]
          rw [ih m (rest.drop (utf8CharLen c - 1))
              (by rw [List.length_drop]; omega) (by rw [List.length_drop]; omega)]

/-- An ASCII scanner unit is a singleton byte. -/
theorem scanUnit_ascii (b : Nat) (cs : List Nat) (hb : b < 0x80)
    (h : scanUnit (b :: cs) = true) : cs = [] := by
  have hl : utf8CharLen b = 1 := by rw [utf8CharLen, if_pos hb]
  have : cs.length + 1 = utf8CharLen b := by simpa [scanUnit] using h
  rw [hl] at this
  exact List.length_eq_zero.mp (by omega)

/-- On input that decomposes into scanner units, the escape loop emits the
per-unit outputs in order: the fuel-indexed version. -/
theorem escapeBytesF_flatten :
    ∀ (units : List (List Nat)),
      (∀ u ∈ units, scanUnit u = true) →
      ∀ fuel, units.flatten.length ≤ fuel →
      escapeBytesF fuel units.flatten = (units.map escUnit).flatten := by
  intro units
  induction units with
  | nil =>
    intro _ fuel _
    cases fuel <;> simp [escapeBytesF]
  | cons u us ih =>
    intro h fuel hf
    have hu : scanUnit u = true := h u (List.mem_cons_self u us)
    have hus : ∀ v ∈ us, scanUnit v = true := fun v hv => h v (List.mem_cons_of_mem u hv)
    cases u with
    | nil => simp [scanUnit] at hu
    | cons b cs =>
      have hlen : cs.length + 1 = utf8CharLen b := by simpa [scanUnit] using hu
      have hflat : ((b :: cs) :: us).flatten = b :: (cs ++ us.flatten) := by simp
      rw [hflat] at hf ⊢
      cases fuel with
      | zero => simp at hf
      | succ n =>
        rw [escapeBytesF]
        simp only [List.length_cons, List.length_append] at hf
        by_cases hb : b < 0x80
        · have hcs : cs = [] := scanUnit_ascii b cs hb hu
          subst hcs
          rw [if_pos hb, List.nil_append, ih hus n (by simpa using hf)]
          simp [escUnit, hb]
        · rw [if_neg hb]
          have hk : utf8CharLen b - 1 = cs.length := by omega
          rw [hk, List.take_left cs us.flatten, List.drop_left cs us.flatten,
            ih hus n (by omega)]
          simp [escUnit, hb]

/-- On input that decomposes into scanner units, the scanner chunking
recovers exactly those units: the fuel-indexed version. -/
theorem scanChunksF_flatten :
    ∀ (units : List (List Nat)),
      (∀ u ∈ units, scanUnit u = true) →
      ∀ fuel, units.flatten.length ≤ fuel →
      scanChunksF fuel units.flatten = units := by
  intro units
  induction units with
  | nil =>
    intro _ fuel _
    cases fuel <;> simp [scanChunksF]
  | cons u us ih =>
    intro h fuel hf
    have hu : scanUnit u = true := h u (List.mem_cons_self u us)
    have hus : ∀ v ∈ us, scanUnit v = true := fun v hv => h v (List.mem_cons_of_mem u hv)
    cases u with
    | nil => simp [scanUnit] at hu
    | cons b cs =>
      have hlen : cs.length + 1 = utf8CharLen b := by simpa [scanUnit] using hu
      have hflat : ((b :: cs) :: us).flatten = b :: (cs ++ us.flatten) := by simp
      rw [hflat] at hf ⊢
      cases fuel with
      | zero => simp at hf
      | succ n =>
        rw [scanChunksF]
        simp only [List.length_cons, List.length_append] at hf
        by_cases hb : b < 0x80
        · have hcs : cs = [] := scanUnit_ascii b cs hb hu
          subst hcs
          rw [if_pos hb, List.nil_append, ih hus n (by simpa using hf)]
        · rw [if_neg hb]
          have hk : utf8CharLen b - 1 = cs.length := by omega
          rw [hk, List.take_left cs us.flatten, List.drop_left cs us.flatten,
            ih hus n (by omega)]

/-- Lemma: `writeLatexEscaped` on unit-decomposable input is the concatenation of
the per-unit outputs. -/
theorem escapeBytes_flatten (units : List (List Nat)) (h : ∀ u ∈ units, scanUnit u = true) :
    escapeBytes units.flatten = (units.map escUnit).flatten :=
  escapeBytesF_flatten units h units.flatten.length (Nat.le_refl _)

/-- A printable ASCII unit is a scanner unit. -/
theorem scanUnit_of_validAscii (u : List Nat) (h : validAsciiUnit u = true) :
    scanUnit u = true := by
  match u with
  | [] => simp [validAsciiUnit] at h
  | [b] =>
    have hb : 0 < b ∧ b < 0x80 := by simpa [validAsciiUnit] using h
    simp [scanUnit, utf8CharLen, hb.2]
  | _ :: _ :: _ => simp [validAsciiUnit] at h

/-- A valid multi-byte UTF-8 sequence is a scanner unit. -/
theorem scanUnit_of_validMB (u : List Nat) (h : validMultiByteSeq u = true) :
    scanUnit u = true := by
  match u with
  | [] => simp [validMultiByteSeq] at h
  | b :: cs =>
    rw [validMultiByteSeq] at h
    simp only [Bool.and_eq_true] at h
    simpa [scanUnit] using h.1.2

/-- The lead byte of a valid multi-byte sequence is not ASCII. -/
theorem validMB_lead_not_ascii (b : Nat) (cs : List Nat)
    (h : validMultiByteSeq (b :: cs) = true) : ¬ b < 0x80 := by
  rw [validMultiByteSeq] at h
  simp only [Bool.and_eq_true, Bool.or_eq_true, decide_eq_true_eq] at h
  rcases h.1.1 with (h2 | h3) | h4 <;> omega

/-- Claim C4: when the input decomposes into printable-ASCII bytes and
valid multi-byte UTF-8 sequences, every multi-byte sequence of the input
appears in the escaped output verbatim and contiguously, wrapped between
the emoji-command delimiters `\emoji` + open brace and the closing brace,
with no byte lost, added inside the sequence, or altered; moreover the
whole output is the in-order concatenation of the per-unit outputs. -/
theorem utf8_roundtrip (units : List (List Nat)) (c : List Nat)
    (h : ∀ u ∈ units, validAsciiUnit u = true ∨ validMultiByteSeq u = true)
    (hc : c ∈ units) (hmb : validMultiByteSeq c = true) :
    escapeBytes units.flatten = (units.map escUnit).flatten ∧
    escUnit c = emojiOpen ++ c ++ emojiClose ∧
    ∃ pre post, escapeBytes units.flatten = pre ++ (emojiOpen ++ c ++ emojiClose) ++ post := by
  have hscan : ∀ u ∈ units, scanUnit u = true := by
    intro u hu
    rcases h u hu with ha | hm
    · exact scanUnit_of_validAscii u ha
    · exact scanUnit_of_validMB u hm
  have heq := escapeBytes_flatten units hscan
  have hesc : escUnit c = emojiOpen ++ c ++ emojiClose := by
    cases c with
    | nil => simp [validMultiByteSeq] at hmb
    | cons b cs =>
      have hb := validMB_lead_not_ascii b cs hmb
      simp [escUnit, hb]
  refine ⟨heq, hesc, ?_⟩
  rcases List.append_of_mem hc with ⟨l1, l2, rfl⟩
  refine ⟨((l1.map escUnit)).flatten, ((l2.map escUnit)).flatten, ?_⟩
  rw [heq]
  simp [hesc]

/-- Witness for C4 with the sequence `F0 9F 98 80` (😀) between two ASCII
bytes. -/
theorem utf8_roundtrip_witness :
    escapeBytes ([[72], [240, 159, 152, 128], [33]] : List (List Nat)).flatten =
      (([[72], [240, 159, 152, 128], [33]] : List (List Nat)).map escUnit).flatten ∧
    escUnit [240, 159, 152, 128] = emojiOpen ++ [240, 159, 152, 128] ++ emojiClose ∧
    ∃ pre post,
      escapeBytes ([[72], [240, 159, 152, 128], [33]] : List (List Nat)).flatten =
        pre ++ (emojiOpen ++ [240, 159, 152, 128] ++ emojiClose) ++ post :=
  utf8_roundtrip [[72], [240, 159, 152, 128], [33]] [240, 159, 152, 128]
    (by decide) (by decide) (by decide)

/-- Claim C10: on input where every byte with the high bit set begins a
UTF-8 sequence whose remaining bytes are present before the end of the
string — i.e. the string decomposes into scanner units — the escape loop
consumes the input unit by unit: the chunks of bytes its iterations visit
are exactly those units (so every input byte is visited exactly once and
the loop terminates at the end of the input), every chunk has exactly the
`utf8CharLen` length announced by its lead byte (the multi-byte copy never
reaches the position of the string terminator), and the output is the
concatenation of the per-chunk outputs, which draw only on bytes of the
input. -/
theorem escape_scanner_safety (units : List (List Nat))
    (h : ∀ u ∈ units, scanUnit u = true) :
    scanChunks units.flatten = units ∧
    (scanChunks units.flatten).flatten = units.flatten ∧
    escapeBytes units.flatten = ((scanChunks units.flatten).map escUnit).flatten ∧
    (∀ u ∈ scanChunks units.flatten, ∃ b cs, u = b :: cs ∧ cs.length + 1 = utf8CharLen b) := by
  have h1 : scanChunks units.flatten = units :=
    scanChunksF_flatten units h units.flatten.length (Nat.le_refl _)
  refine ⟨h1, by rw [h1], ?_, ?_⟩
  · rw [h1]
    exact escapeBytes_flatten units h
  · rw [h1]
    intro u hu
    have := h u hu
    cases u with
    | nil => simp [scanUnit] at this
    | cons b cs => exact ⟨b, cs, rfl, by simpa [scanUnit] using this⟩

/-- Witness for C10 on the input `H`, `C3 A9` (é). -/
theorem escape_scanner_safety_witness :
    scanChunks ([[72], [195, 169]] : List (List Nat)).flatten = [[72], [195, 169]] ∧
    (scanChunks ([[72], [195, 169]] : List (List Nat)).flatten).flatten =
      ([[72], [195, 169]] : List (List Nat)).flatten ∧
    escapeBytes ([[72], [195, 169]] : List (List Nat)).flatten =
      ((scanChunks ([[72], [195, 169]] : List (List Nat)).flatten).map escUnit).flatten ∧
    (∀ u ∈ scanChunks ([[72], [195, 169]] : List (List Nat)).flatten,
      ∃ b cs, u = b :: cs ∧ cs.length + 1 = utf8CharLen b) :=
  escape_scanner_safety [[72], [195, 169]] (by decide)

/-- Right-trimming is idempotent. -/
theorem trimRight_idem (s : List Nat) : trimRight (trimRight s) = trimRight s := by
  rw [trimRight, trimRight, List.reverse_reverse, List.dropWhile_idempotent]

/-- A list whose head is not trimmable keeps its head under `trimRight`. -/
theorem trimRight_cons_of_head (c : Nat) (t : List Nat)
    (hc : (c == 13 || c == 10 || isspaceB c) = false) :
    ∃ t', trimRight (c :: t) = c :: t' := by
  rw [trimRight, List.reverse_cons, List.dropWhile_append]
  rcases ht : List.dropWhile (fun b => b == 13 || b == 10 || isspaceB b) t.reverse with _ | ⟨x, xs⟩
  · refine ⟨[], ?_⟩
    simp [List.dropWhile, hc]
  · refine ⟨xs.reverse ++ [x], ?_⟩
    simp

/-- A case-sensitive prefix test pins the head byte. -/
theorem startsWith_head (s p : List Nat) (d : Nat) (ps : List Nat) (hp : p = d :: ps)
    (h : startsWith s p = true) : ∃ t, s = d :: t := by
  subst hp
  cases s with
  | nil => simp [startsWith, List.isPrefixOf] at h
  | cons c t =>
    simp only [startsWith, List.isPrefixOf, Bool.and_eq_true, beq_iff_eq] at h
    exact ⟨t, by rw [← h.1]⟩

/-- A case-sensitive prefix test fails on a differing head byte. -/
theorem startsWith_false_of_head (c : Nat) (t : List Nat) (d : Nat) (ps : List Nat)
    (h : ¬ d = c) : startsWith (c :: t) (d :: ps) = false := by
  simp [startsWith, List.isPrefixOf, h]

/-- A case-insensitive prefix test pins the lowered head byte. -/
theorem sWIC_head (s p : List Nat) (d : Nat) (ps : List Nat) (hp : p = d :: ps)
    (h : startsWithIgnoreCase s p = true) :
    ∃ c t, s = c :: t ∧ tolowerB c = tolowerB d := by
  subst hp
  cases s with
  | nil => simp [startsWithIgnoreCase] at h
  | cons c t =>
    simp only [startsWithIgnoreCase, Bool.and_eq_true, beq_iff_eq] at h
    exact ⟨c, t, rfl, h.1⟩

/-- A case-insensitive prefix test fails on a differing lowered head byte. -/
theorem sWIC_false_of_head (c : Nat) (t : List Nat) (d : Nat) (ps : List Nat)
    (h : ¬ tolowerB c = tolowerB d) :
    startsWithIgnoreCase (c :: t) (d :: ps) = false := by
  simp [startsWithIgnoreCase, h]

/-- Lemma: `stripPhoneFromFromLine` keeps a non-colon, non-trimmable head byte. -/
theorem stripPhone_cons (c : Nat) (t : List Nat) (h58 : ¬ c = 58)
    (hc : (c == 13 || c == 10 || isspaceB c) = false) :
    ∃ t', stripPhoneFromFromLine (c :: t) = c :: t' := by
  rw [stripPhoneFromFromLine]
  have hidx : idxOf 58 (c :: t) = (idxOf 58 t).map (· + 1) := by
    simp [idxOf, h58]
  rw [hidx]
  cases h1 : idxOf 58 t with
  | none => exact ⟨t, rfl⟩
  | some k =>
    show ∃ t', (match idxOf 40 ((c :: t).drop (k + 1)) with
      | none => c :: t
      | some pi => trimRight ((c :: t).take (k + 1 + pi))) = c :: t'
    cases h2 : idxOf 40 ((c :: t).drop (k + 1)) with
    | none => exact ⟨t, rfl⟩
    | some pi =>
      show ∃ t', trimRight ((c :: t).take (k + 1 + pi)) = c :: t'
      have htake : (c :: t).take (k + 1 + pi) = c :: t.take (k + pi) := by
        have h3 : k + 1 + pi = (k + pi) + 1 := by omega
        rw [h3, List.take_succ_cons]
      rw [htake]
      exact trimRight_cons_of_head c (t.take (k + pi)) hc

/-- Lemma: `stripPhoneFromFromLine` maps right-trimmed lines to right-trimmed
lines. -/
theorem stripPhone_trimmed (l : List Nat) (h : trimRight l = l) :
    trimRight (stripPhoneFromFromLine l) = stripPhoneFromFromLine l := by
  rw [stripPhoneFromFromLine]
  cases h58 : idxOf 58 l with
  | none => exact h
  | some ci =>
    show trimRight (match idxOf 40 (l.drop ci) with
      | none => l
      | some pi => trimRight (l.take (ci + pi))) =
      (match idxOf 40 (l.drop ci) with
      | none => l
      | some pi => trimRight (l.take (ci + pi)))
    cases h40 : idxOf 40 (l.drop ci) with
    | none => exact h
    | some pi =>
      show trimRight (trimRight (l.take (ci + pi))) = trimRight (l.take (ci + pi))
      exact trimRight_idem _

/-- When no marker fires and the line is not an attachment line, the loop
body falls through to the prose/paragraph branch. -/
theorem processLine_prose (list : List AttachmentFile) (raw : List Nat)
    (hty : startsWithIgnoreCase (trimRight raw) typeMarker = false)
    (hrc : startsWithIgnoreCase (trimRight raw) receivedMarker = false)
    (hfr : startsWithIgnoreCase (trimRight raw) fromMarker = false)
    (hat : startsWith (trimRight raw) attachMarker = false) :
    processLine list raw =
      (if trimRight (trimRight raw) = [] then strBytes "\n\n"
       else escapeBytes (trimRight (trimRight raw)) ++ strBytes "\\\\\n", list) := by
  simp [processLine, hty, hrc, hfr, hat]
  split <;> rfl

/-- A `From:`-marked line is redacted and falls through to the prose
branch when the redacted line is not an attachment line. -/
theorem processLine_from (list : List AttachmentFile) (raw : List Nat)
    (hty : startsWithIgnoreCase (trimRight raw) typeMarker = false)
    (hrc : startsWithIgnoreCase (trimRight raw) receivedMarker = false)
    (hfr : startsWithIgnoreCase (trimRight raw) fromMarker = true)
    (hat : startsWith (stripPhoneFromFromLine (trimRight raw)) attachMarker = false) :
    processLine list raw =
      (if trimRight (stripPhoneFromFromLine (trimRight raw)) = [] then strBytes "\n\n"
       else escapeBytes (trimRight (stripPhoneFromFromLine (trimRight raw))) ++
         strBytes "\\\\\n", list) := by
  simp [processLine, hty, hrc, hfr, hat]
  split <;> rfl

/-- An attachment line whose reference the matcher cannot resolve yields
the unmatched placeholder and leaves the catalog unchanged. -/
theorem processLine_attach_unmatched (list : List AttachmentFile) (raw : List Nat)
    (hty : startsWithIgnoreCase (trimRight raw) typeMarker = false)
    (hrc : startsWithIgnoreCase (trimRight raw) receivedMarker = false)
    (hfr : startsWithIgnoreCase (trimRight raw) fromMarker = false)
    (ha : startsWith (trimRight raw) attachMarker = true)
    (hm : matchAttachment list (parseAttachmentLine (trimRight raw)) = none) :
    processLine list raw = (unmatchedFragment (trimRight raw), list) := by
  simp [processLine, hty, hrc, hfr, ha, hm]

/-- Claim C8: an attachment line whose parsed reference matches no catalog
entry is neither dropped nor an error — the unmatched-placeholder fragment
(containing the escaped original line) is emitted, the catalog is
unchanged, and processing continues with the following lines. -/
theorem unmatched_placeholder_kept (list : List AttachmentFile) (rest : List (List Nat))
    (raw : List Nat) (ha : startsWith (trimRight raw) attachMarker = true)
    (hm : matchAttachment list (parseAttachmentLine (trimRight raw)) = none) :
    processLine list raw = (unmatchedFragment (trimRight raw), list) ∧
    processLines list (raw :: rest) =
      unmatchedFragment (trimRight raw) ++ processLines list rest := by
  obtain ⟨t, ht⟩ :=
    startsWith_head (trimRight raw) attachMarker 65 (strBytes "ttachment:") (by decide) ha
  have hty : startsWithIgnoreCase (trimRight raw) typeMarker = false := by
    rw [ht, show typeMarker = 84 :: strBytes "ype:" from by decide]
    exact sWIC_false_of_head 65 t 84 (strBytes "ype:") (by decide)
  have hrc : startsWithIgnoreCase (trimRight raw) receivedMarker = false := by
    rw [ht, show receivedMarker = 82 :: strBytes "eceived:" from by decide]
    exact sWIC_false_of_head 65 t 82 (strBytes "eceived:") (by decide)
  have hfr : startsWithIgnoreCase (trimRight raw) fromMarker = false := by
    rw [ht, show fromMarker = 70 :: strBytes "rom:" from by decide]
    exact sWIC_false_of_head 65 t 70 (strBytes "rom:") (by decide)
  have h1 := processLine_attach_unmatched list raw hty hrc hfr ha hm
  refine ⟨h1, ?_⟩
  show (processLine list raw).1 ++ processLines (processLine list raw).2 rest = _
  rw [h1]

/-- Claim C9: line classification mixes case sensitivities.  A line whose
(trimmed) text begins with the attachment marker only up to case, without
being exactly `Attachment:`, is treated as prose (escaped, with a forced
line break); lines beginning with any casing of `Type:` or `Received:` are
dropped with no output; lines beginning with any casing of `From:` are
redacted by `stripPhoneFromFromLine` and then emitted as prose.  In all
four cases the catalog is untouched. -/
theorem classification_case_sensitivity (list : List AttachmentFile) :
    (∀ l, startsWithIgnoreCase (trimRight l) (strBytes "attachment:") = true →
      startsWith (trimRight l) attachMarker = false →
      processLine list l = (escapeBytes (trimRight l) ++ strBytes "\\\\\n", list)) ∧
    (∀ l, startsWithIgnoreCase (trimRight l) typeMarker = true →
      processLine list l = ([], list)) ∧
    (∀ l, startsWithIgnoreCase (trimRight l) receivedMarker = true →
      processLine list l = ([], list)) ∧
    (∀ l, startsWithIgnoreCase (trimRight l) fromMarker = true →
      processLine list l =
        (escapeBytes (stripPhoneFromFromLine (trimRight l)) ++ strBytes "\\\\\n", list)) := by
  refine ⟨?_, ?_, ?_, ?_⟩
  · intro l h hna
    obtain ⟨c, t, hl, hc⟩ :=
      sWIC_head (trimRight l) _ 97 (strBytes "ttachment:") (by decide) h
    have hc97 : tolowerB c = 97 := by rw [hc]; decide
    have hty : startsWithIgnoreCase (trimRight l) typeMarker = false := by
      rw [hl, show typeMarker = 84 :: strBytes "ype:" from by decide]
      exact sWIC_false_of_head c t 84 (strBytes "ype:") (by rw [hc97]; decide)
    have hrc : startsWithIgnoreCase (trimRight l) receivedMarker = false := by
      rw [hl, show receivedMarker = 82 :: strBytes "eceived:" from by decide]
      exact sWIC_false_of_head c t 82 (strBytes "eceived:") (by rw [hc97]; decide)
    have hfr : startsWithIgnoreCase (trimRight l) fromMarker = false := by
      rw [hl, show fromMarker = 70 :: strBytes "rom:" from by decide]
      exact sWIC_false_of_head c t 70 (strBytes "rom:") (by rw [hc97]; decide)
    rw [processLine_prose list l hty hrc hfr hna, trimRight_idem, hl]
    simp
  · intro l h
    simp [processLine, h]
  · intro l h
    obtain ⟨c, t, hl, hc⟩ :=
      sWIC_head (trimRight l) _ 82 (strBytes "eceived:") (by decide) h
    have hc114 : tolowerB c = 114 := by rw [hc]; decide
    have hty : startsWithIgnoreCase (trimRight l) typeMarker = false := by
      rw [hl, show typeMarker = 84 :: strBytes "ype:" from by decide]
      exact sWIC_false_of_head c t 84 (strBytes "ype:") (by rw [hc114]; decide)
    simp [processLine, hty, h]
  · intro l h
    obtain ⟨c, t, hl, hc⟩ :=
      sWIC_head (trimRight l) _ 70 (strBytes "rom:") (by decide) h
    have hc102 : tolowerB c = 102 := by rw [hc]; decide
    have hcval : c = 70 ∨ c = 102 := by
      rw [tolowerB] at hc102
      split at hc102 <;> omega
    have hty : startsWithIgnoreCase (trimRight l) typeMarker = false := by
      rw [hl, show typeMarker = 84 :: strBytes "ype:" from by decide]
      exact sWIC_false_of_head c t 84 (strBytes "ype:") (by rw [hc102]; decide)
    have hrc : startsWithIgnoreCase (trimRight l) receivedMarker = false := by
      rw [hl, show receivedMarker = 82 :: strBytes "eceived:" from by decide]
      exact sWIC_false_of_head c t 82 (strBytes "eceived:") (by rw [hc102]; decide)
    have hc58 : ¬ c = 58 := by rcases hcval with rfl | rfl <;> decide
    have hctrim : (c == 13 || c == 10 || isspaceB c) = false := by
      rcases hcval with rfl | rfl <;> decide
    obtain ⟨t2, ht2⟩ : ∃ t2, stripPhoneFromFromLine (trimRight l) = c :: t2 := by
      rw [hl]
      exact stripPhone_cons c t hc58 hctrim
    have hat : startsWith (stripPhoneFromFromLine (trimRight l)) attachMarker = false := by
      rw [ht2, show attachMarker = 65 :: strBytes "ttachment:" from by decide]
      exact startsWith_false_of_head c t2 65 (strBytes "ttachment:")
        (by rcases hcval with rfl | rfl <;> decide)
    rw [processLine_from list l hty hrc h hat,
      stripPhone_trimmed (trimRight l) (trimRight_idem l), ht2]
    simp

/-- Witness for C9: a lowercase `attachment:` line is escaped as prose,
uppercase `TYPE:`/`RECEIVED:` lines are dropped, and a mixed-case `fRoM:`
line is redacted. -/
theorem classification_case_sensitivity_witness :
    processLine [] (strBytes "attachment: pic.png (image/png, 5 bytes)") =
      (escapeBytes (trimRight (strBytes "attachment: pic.png (image/png, 5 bytes)")) ++
        strBytes "\\\\\n", []) ∧
    processLine [] (strBytes "TYPE: incoming") = ([], []) ∧
    processLine [] (strBytes "RECEIVED: now") = ([], []) ∧
    processLine [] (strBytes "fRoM: Bob (+1)") =
      (escapeBytes (stripPhoneFromFromLine (trimRight (strBytes "fRoM: Bob (+1)"))) ++
        strBytes "\\\\\n", []) := by
  obtain ⟨h1, h2, h3, h4⟩ := classification_case_sensitivity []
  exact ⟨h1 _ (by decide) (by decide), h2 _ (by decide), h3 _ (by decide), h4 _ (by decide)⟩

/-- Witness for C8, instantiating the spec's scenario: `notes.pdf` with
size 1024 against a catalog holding only `other.txt` of size 5. -/
theorem unmatched_placeholder_kept_witness :
    processLine [⟨strBytes "other.txt", 5, false⟩]
        (strBytes "Attachment: notes.pdf (application/pdf, 1024 bytes)") =
      (unmatchedFragment
          (trimRight (strBytes "Attachment: notes.pdf (application/pdf, 1024 bytes)")),
        [⟨strBytes "other.txt", 5, false⟩]) ∧
    processLines [⟨strBytes "other.txt", 5, false⟩]
        [strBytes "Attachment: notes.pdf (application/pdf, 1024 bytes)"] =
      unmatchedFragment
          (trimRight (strBytes "Attachment: notes.pdf (application/pdf, 1024 bytes)")) ++
        processLines [⟨strBytes "other.txt", 5, false⟩] [] :=
  unmatched_placeholder_kept [⟨strBytes "other.txt", 5, false⟩] []
    (strBytes "Attachment: notes.pdf (application/pdf, 1024 bytes)") (by decide) (by decide)

/-- Claim C3: the line `Attachment: no filename (image/jpeg, 439593 bytes)`
against a catalog holding exactly `IMG_0001.jpg` of size 439593 produces
the image-inclusion fragment for the attachments-relative path
`attachments/IMG_0001.jpg`, and the entry comes out consumed. -/
theorem scenario_no_filename_size_match :
    processLine [⟨strBytes "IMG_0001.jpg", 439593, false⟩]
        (strBytes "Attachment: no filename (image/jpeg, 439593 bytes)") =
      (imageIncludeFragment (strBytes "attachments/IMG_0001.jpg"),
        [⟨strBytes "IMG_0001.jpg", 439593, true⟩]) := by decide

/-- Claim C5 (counterexample to the claim as stated): processing
`From: Jane Doe (+15551234567)` does not emit `Jane Doe` followed by the
forced-line-break marker — the `From: ` label survives redaction. -/
theorem from_redaction_counterexample :
    (processLine [] (strBytes "From: Jane Doe (+15551234567)")).1 ≠
      strBytes "Jane Doe\\\\\n" := by decide

/-- Claim C5 (amended): processing `From: Jane Doe (+15551234567)` removes
the parenthetical phone number and trailing whitespace but keeps the
`From:` label, emitting exactly `From: Jane Doe` followed by the
forced-line-break marker, with the catalog untouched. -/
theorem from_redaction_amended :
    processLine [] (strBytes "From: Jane Doe (+15551234567)") =
      (strBytes "From: Jane Doe\\\\\n", []) := by decide

/-- Claim C7 (counterexample to the claim as stated): for the input path
`a.b/c` — whose final component `c` carries no extension — the code
truncates at the dot inside the directory component and yields `a.tex`
instead of appending, so the output is not the input with its final
extension replaced or the target extension appended. -/
theorem output_naming_counterexample :
    outputPathOf (strBytes "a.b/c") ≠ specOutputPath (strBytes "a.b/c") ∧
    outputPathOf (strBytes "a.b/c") = strBytes "a.tex" ∧
    specOutputPath (strBytes "a.b/c") = strBytes "a.b/c.tex" :=
  ⟨by decide, by decide, by decide⟩

/-- The index returned by `strrchr` is inside the string. -/
theorem lastIdxOf_lt_length (c : Nat) :
    ∀ (s : List Nat) (i : Nat), lastIdxOf c s = some i → i < s.length := by
  intro s
  induction s with
  | nil => intro i h; cases h
  | cons b rest ih =>
    intro i h
    rw [lastIdxOf] at h
    cases hr : lastIdxOf c rest with
    | some j =>
      rw [hr] at h
      cases h
      have := ih j hr
      simp only [List.length_cons]
      omega
    | none =>
      rw [hr] at h
      by_cases hb : (b == c) = true
      · rw [if_pos hb] at h
        cases h
        simp
      · rw [if_neg hb] at h
        cases h

/-- Claim C7 (amended): for any input path short enough for the output
buffer, the derived output path is the string-level last-dot rule: truncate
at the last `'.'` whenever one occurs beyond the first byte — even when
that dot lies in a directory component — and append `".tex"`; otherwise
(no dot, or only a leading dot) append `".tex"` to the whole input. -/
theorem output_naming_amended (input : List Nat) (h : input.length ≤ MaxPathLen - 5) :
    outputPathOf input = lastDotRule input := by
  rw [outputPathOf, lastDotRule]
  cases hi : lastIdxOf 46 input with
  | none =>
    rw [List.take_of_length_le]
    rw [List.length_append]
    show input.length + (strBytes ".tex").length ≤ MaxPathLen - 1
    rw [show (strBytes ".tex").length = 4 from by decide]
    rw [show MaxPathLen = 4096 from rfl] at h ⊢
    omega
  | some i =>
    show (if i ≠ 0 then
        List.take (if MaxPathLen ≤ i then MaxPathLen - 5 else i) input ++ strBytes ".tex"
      else List.take (MaxPathLen - 1) (input ++ strBytes ".tex")) =
      (if i ≠ 0 then List.take i input ++ strBytes ".tex" else input ++ strBytes ".tex")
    by_cases h0 : i ≠ 0
    · rw [if_pos h0, if_pos h0]
      have hlt : i < input.length := lastIdxOf_lt_length 46 input i hi
      have hni : ¬ MaxPathLen ≤ i := by
        rw [show MaxPathLen = 4096 from rfl] at h ⊢
        omega
      rw [if_neg hni]
    · rw [if_neg h0, if_neg h0]
      rw [List.take_of_length_le]
      rw [List.length_append]
      show input.length + (strBytes ".tex").length ≤ MaxPathLen - 1
      rw [show (strBytes ".tex").length = 4 from by decide]
      rw [show MaxPathLen = 4096 from rfl] at h ⊢
      omega

/-- Witness for the amended C7 statement at the counterexample input. -/
theorem output_naming_amended_witness :
    (strBytes "a.b/c").length ≤ MaxPathLen - 5 ∧
    outputPathOf (strBytes "a.b/c") = lastDotRule (strBytes "a.b/c") :=
  ⟨by decide, output_naming_amended (strBytes "a.b/c") (by decide)⟩

end Txt2Tex
